import Mathlib

/-!
Verification of the CommandVault query-resolution core, mutation
operations and template expander against their natural-language
specification.

The Python sources are shallowly embedded:

* strings are `String` (a `List Char` under the hood), nullable SQL
  columns are `Option String`;
* `_parse_query` (main.py) becomes `parse_query`;
* `_search` (main.py) becomes `searchE`; the SQLite FTS5 layer is an
  oracle (`FtsEnv`) recording whether the index exists (`_fts_ok`),
  whether the `MATCH` query raises `sqlite3.Error`, and which rows it
  ranks; the `ORDER BY`/`LIMIT` clauses of the source SQL are embedded
  as explicit sorting and truncation;
* SQLite `LIKE` (ASCII-case-insensitive, with the `%` and `_`
  wildcards, no ESCAPE clause) becomes `likeMatch`;
* the `commands` table plus its FTS index and the schema triggers of
  db_init.py become `VaultDb` and the mutation operations of
  manager.py / main.py (`insert_cmd`, `update_cmd`, `delete_cmd`,
  `toggle_favorite`);
* template_dialog.py's variable scan (`VAR_PATTERN`), prompt-once
  collection (`dict.fromkeys`) and sequential `str.replace`
  substitution in `on_ok` become `tokenize`, `varsFound` and `onOk`;
  `run`/`_expand_template` become `dialog_run`/`expand_template`.
-/

/-! ## String helpers (Python `str.split`, `str.strip`, `str.lower`) -/

/-- Python `str.strip()` on a character list: drop whitespace from both
ends. -/
def pyStrip (l : List Char) : List Char :=
  ((l.dropWhile Char.isWhitespace).reverse.dropWhile Char.isWhitespace).reverse

/-- Python `str.strip()` on a `String`. -/
def pyStripS (s : String) : String :=
  String.mk (pyStrip s.data)

/-- Helper for `pySplit`: `cur` holds the characters of the current
token in reverse. -/
def pySplitGo (cur : List Char) : List Char → List String
  | [] => if cur.isEmpty then [] else [String.mk cur.reverse]
  | c :: rest =>
    if c.isWhitespace then
      if cur.isEmpty then pySplitGo [] rest
      else String.mk cur.reverse :: pySplitGo [] rest
    else pySplitGo (c :: cur) rest

/-- Python `str.split()` with no argument: split on runs of whitespace,
discarding empty pieces. -/
def pySplit (s : String) : List String :=
  pySplitGo [] s.data

/-- Python `str.lower()` restricted to ASCII (all characters compared by
the source are ASCII). -/
def pyLower (l : List Char) : List Char :=
  l.map Char.toLower

/-- Space-join, Python `" ".join(tokens)`. -/
def joinSpace : List String → String
  | [] => ""
  | [t] => t
  | t :: u :: rest => t ++ " " ++ joinSpace (u :: rest)

/-! ## Query parser (`_parse_query` in main.py) -/

/-- The operator families of the `_OPERATORS` table in main.py. -/
inductive OpFamily
  | category
  | subcategory
  | tag
  | favorites
deriving DecidableEq

/-- The `_OPERATORS` alias table of main.py. -/
def opLookup : String → Option OpFamily
  | "cat" | "c" | "category" => some .category
  | "sub" | "s" | "subcategory" => some .subcategory
  | "tag" | "t" => some .tag
  | "fav" | "f" | "favorite" | "favorites" => some .favorites
  | _ => none

/-- The structured-filter dictionary produced by `_parse_query`.  A key
is present in the Python dict exactly when the corresponding field here
is `some`-valued (resp. `true` for favorites). -/
structure Filters where
  category : Option String := none
  subcategory : Option String := none
  tag : Option String := none
  favorites : Bool := false
deriving DecidableEq

/-- Python `not filters`: the dict is empty. -/
def Filters.isEmpty (f : Filters) : Bool :=
  f.category.isNone && f.subcategory.isNone && f.tag.isNone && !f.favorites

/-- `key, _, val = token.partition(":")` followed by
`key.lower().strip()`. -/
def tokenKey (t : String) : String :=
  String.mk (pyStrip (pyLower (t.data.takeWhile (fun c => c ≠ ':'))))

/-- `val.strip()` from `key, _, val = token.partition(":")`. -/
def tokenVal (t : String) : String :=
  String.mk (pyStrip ((t.data.dropWhile (fun c => c ≠ ':')).drop 1))

/-- One loop iteration of `_parse_query`: dispatch a single token into
either the accumulated plain tokens or the filter dict. -/
def parseStep (acc : List String × Filters) (token : String) :
    List String × Filters :=
  if token.data.any (fun c => c = ':') then
    let val := tokenVal token
    match opLookup (tokenKey token) with
    | some .favorites => (acc.1, { acc.2 with favorites := true })
    | some .category =>
        if val ≠ "" then (acc.1, { acc.2 with category := some val })
        else (acc.1 ++ [token], acc.2)
    | some .subcategory =>
        if val ≠ "" then (acc.1, { acc.2 with subcategory := some val })
        else (acc.1 ++ [token], acc.2)
    | some .tag =>
        if val ≠ "" then (acc.1, { acc.2 with tag := some val })
        else (acc.1 ++ [token], acc.2)
    | none => (acc.1 ++ [token], acc.2)
  else (acc.1 ++ [token], acc.2)

/-- `_parse_query` of main.py: split a raw query into plain text plus
operator filters. -/
def parse_query (raw : String) : String × Filters :=
  let r := (pySplit raw).foldl parseStep ([], {})
  (joinSpace r.1, r.2)

/-! ## SQLite `LIKE` (ASCII-case-insensitive, `%`/`_` wildcards, no
ESCAPE clause) -/

/-- SQLite `LIKE` pattern matching: `%` matches any sequence, `_` any
single character, ordinary characters match up to ASCII case. -/
def likeMatch : List Char → List Char → Bool
  | [], [] => true
  | [], _ :: _ => false
  | p :: ps, [] => if p = '%' then likeMatch ps [] else false
  | p :: ps, c :: ss =>
    if p = '%' then likeMatch ps (c :: ss) || likeMatch (p :: ps) ss
    else if p = '_' then likeMatch ps ss
    else (Char.toLower p == Char.toLower c) && likeMatch ps ss
termination_by p s => (p.length, s.length)

/-- The pattern `f"%{v}%"` built by `_search` for every `LIKE`
condition. -/
def likePat (v : String) : List Char :=
  '%' :: (v.data ++ ['%'])

/-- `col LIKE pattern` over a nullable column: NULL never matches. -/
def optLike (pat : List Char) : Option String → Bool
  | none => false
  | some s => likeMatch pat s.data

/-! ## The `commands` table row -/

/-- One row of the `commands` table (db_init.py schema).  `subcategory`,
`description` and `tags` are nullable. -/
structure Entry where
  id : Nat
  category : String
  subcategory : Option String
  title : String
  command : String
  description : Option String
  tags : Option String
  is_favorite : Bool
  created_at : String
  updated_at : String
deriving DecidableEq

/-- Sort key for `ORDER BY is_favorite DESC`: favourites (stored as 1)
come first. -/
def favRank (e : Entry) : Nat :=
  if e.is_favorite then 0 else 1

/-- SQLite ascending order on a nullable text column: NULL sorts before
every string, strings compare by code point (BINARY collation). -/
def optStrLt : Option String → Option String → Bool
  | none, none => false
  | none, some _ => true
  | some _, none => false
  | some a, some b => decide (a < b)

/-- `ORDER BY is_favorite DESC, category ASC, subcategory ASC, title
ASC` of the final query in `_search`. -/
def entryLe (a b : Entry) : Bool :=
  if favRank a ≠ favRank b then decide (favRank a < favRank b)
  else if a.category ≠ b.category then decide (a.category < b.category)
  else if a.subcategory ≠ b.subcategory then optStrLt a.subcategory b.subcategory
  else decide (a.title ≤ b.title)

/-! ## Sorting (the `ORDER BY` clauses) -/

/-- Insert into a sorted list, keeping earlier elements on ties. -/
def insertSorted (le : α → α → Bool) (x : α) : List α → List α
  | [] => [x]
  | y :: ys => if le x y then x :: y :: ys else y :: insertSorted le x ys

/-- Insertion sort by a boolean comparison; models an SQL `ORDER BY`
(any sorted permutation of the rows). -/
def sortRows (le : α → α → Bool) : List α → List α
  | [] => []
  | x :: xs => insertSorted le x (sortRows le xs)

/-! ## The query resolver `_search` (main.py) -/

/-- Oracle for the SQLite FTS5 layer as seen by one `_search` call:
whether `_fts_ok` succeeds (the `commands_fts` table is queryable),
whether executing the `MATCH` query with a given match string raises
`sqlite3.Error`, and the relevance rank (`some r`, smaller is better)
the index assigns to a row for that match string (`none` = row not
matched). -/
structure FtsEnv where
  ok : Bool
  raises : String → Bool
  rank : String → Entry → Option Int

/-- `" OR ".join(...)` in `_search`. -/
def joinOrSep : List String → String
  | [] => ""
  | [t] => t
  | t :: u :: rest => t ++ " OR " ++ joinOrSep (u :: rest)

/-- The FTS5 match string `" OR ".join(f'"{t}"' for t in plain.split()
if t)` built by `_search`. -/
def fts_q (plain : String) : String :=
  joinOrSep (((pySplit plain).filter (fun t => t ≠ "")).map
    (fun t => "\"" ++ t ++ "\""))

/-- `ORDER BY c.is_favorite DESC, rank` of the indexed query in
`_search`. -/
def ftsLe (env : FtsEnv) (q : String) (a b : Entry) : Bool :=
  decide (favRank a < favRank b) ||
    (favRank a == favRank b &&
      decide (((env.rank q a).getD 0) ≤ ((env.rank q b).getD 0)))

/-- Rows of the indexed query in `_search`: the store rows matched by
the index, `ORDER BY c.is_favorite DESC, rank LIMIT 50`. -/
def ftsRows (env : FtsEnv) (q : String) (store : List Entry) : List Entry :=
  (sortRows (ftsLe env q)
    (store.filter (fun e => (env.rank q e).isSome))).take 50

/-- The operator-filter `WHERE` conditions accumulated by `_search`
(`is_favorite = 1`, `category LIKE ?`, `subcategory LIKE ?`,
`tags LIKE ?`). -/
def structCond (f : Filters) (e : Entry) : Bool :=
  (!f.favorites || e.is_favorite) &&
  (match f.category with
   | none => true
   | some c => likeMatch (likePat c) e.category.data) &&
  (match f.subcategory with
   | none => true
   | some s => optLike (likePat s) e.subcategory) &&
  (match f.tag with
   | none => true
   | some t => optLike (likePat t) e.tags)

/-- The LIKE-fallback text condition of `_search`: the `%plain%` pattern
against any of title, command, description, tags, category,
subcategory. -/
def likeSix (plain : String) (e : Entry) : Bool :=
  likeMatch (likePat plain) e.title.data ||
  likeMatch (likePat plain) e.command.data ||
  optLike (likePat plain) e.description ||
  optLike (likePat plain) e.tags ||
  likeMatch (likePat plain) e.category.data ||
  optLike (likePat plain) e.subcategory

/-- The final `SELECT * FROM commands WHERE ... ORDER BY is_favorite
DESC, category ASC, subcategory ASC, title ASC LIMIT 50` of
`_search`. -/
def finalQuery (store : List Entry) (cond : Entry → Bool) : List Entry :=
  (sortRows entryLe (store.filter cond)).take 50

/-- `_search` of main.py, with the possibility of an uncaught database
error in the result type.  The FTS attempt is guarded by
`_fts_ok(con) and not filters`; a raising `MATCH` query is caught
(`except sqlite3.Error: pass`) and falls through to the LIKE fallback,
as does an empty FTS result. -/
def searchE (env : FtsEnv) (store : List Entry) (query : String) :
    Except Unit (List Entry) :=
  let raw := pyStripS query
  let pf := parse_query raw
  let plain := pf.1
  let f := pf.2
  if plain = "" then
    Except.ok (finalQuery store (structCond f))
  else
    let fallback := finalQuery store (fun e => structCond f e && likeSix plain e)
    if env.ok && f.isEmpty then
      let q := fts_q plain
      if env.raises q then Except.ok fallback
      else
        let rows := ftsRows env q store
        if rows.isEmpty then Except.ok fallback else Except.ok rows
    else Except.ok fallback

/-- The row list `_search` hands to the plugin (total form of
`searchE`). -/
def search (env : FtsEnv) (store : List Entry) (query : String) :
    List Entry :=
  match searchE env store query with
  | Except.ok rows => rows
  | Except.error _ => []

/-! ## Parser lemmas -/

/-- Whether `_parse_query` sends a token to `plain_tokens` (rather than
consuming it as an operator filter). -/
def isPlainTok (t : String) : Bool :=
  if t.data.any (fun c => c = ':') then
    match opLookup (tokenKey t) with
    | some OpFamily.favorites => false
    | some _ => decide (tokenVal t = "")
    | none => true
  else true

/-- The effect of one `_parse_query` iteration on the filter dict
alone. -/
def filtStep (f : Filters) (t : String) : Filters :=
  if t.data.any (fun c => c = ':') then
    match opLookup (tokenKey t) with
    | some OpFamily.favorites => { f with favorites := true }
    | some OpFamily.category =>
        if tokenVal t ≠ "" then { f with category := some (tokenVal t) } else f
    | some OpFamily.subcategory =>
        if tokenVal t ≠ "" then { f with subcategory := some (tokenVal t) } else f
    | some OpFamily.tag =>
        if tokenVal t ≠ "" then { f with tag := some (tokenVal t) } else f
    | none => f
  else f

theorem parseStep_eq (p : List String) (f : Filters) (t : String) :
    parseStep (p, f) t =
      (if isPlainTok t then p ++ [t] else p, filtStep f t) := by
  by_cases hc : t.data.any (fun c => c = ':') = true
  · rcases ho : opLookup (tokenKey t) with _ | fam
    · simp [parseStep, isPlainTok, filtStep, hc, ho]
    · by_cases hv : tokenVal t = "" <;> cases fam <;>
        simp [parseStep, isPlainTok, filtStep, hc, hv, ho]
  · simp [parseStep, isPlainTok, filtStep, hc]

/-- Decomposition of the `_parse_query` loop: the plain tokens are the
tokens satisfying `isPlainTok`, in order, and the filter dict is the
fold of `filtStep`. -/
theorem foldl_parse (toks : List String) (p : List String) (f : Filters) :
    toks.foldl parseStep (p, f) =
      (p ++ toks.filter isPlainTok, toks.foldl filtStep f) := by
  induction toks generalizing p f with
  | nil => simp
  | cons t ts ih =>
    by_cases h : isPlainTok t = true <;>
      simp [parseStep_eq, h, ih, List.filter_cons]

theorem plainTok_of_empty_val (t : String)
    (hcolon : t.data.any (fun c => c = ':') = true)
    (hfam : opLookup (tokenKey t) = some OpFamily.category ∨
      opLookup (tokenKey t) = some OpFamily.subcategory ∨
      opLookup (tokenKey t) = some OpFamily.tag)
    (hval : tokenVal t = "") :
    isPlainTok t = true ∧ ∀ f, filtStep f t = f := by
  rcases hfam with h | h | h <;>
    exact ⟨by simp [isPlainTok, hcolon, h, hval],
      fun f => by simp [filtStep, hcolon, h, hval]⟩

/-- Claim C9: a `key:value` token whose key is a category, subcategory
or tag alias but whose trimmed value is empty is not consumed as a
filter and is kept as plain text in its original position; in
particular `parse_query "cat: vlan"` yields plain text `"cat: vlan"`
and an empty filter set. -/
theorem c9_empty_operator_fallback (t : String) (pre suf : List String)
    (p : List String) (f : Filters)
    (hcolon : t.data.any (fun c => c = ':') = true)
    (hfam : opLookup (tokenKey t) = some OpFamily.category ∨
      opLookup (tokenKey t) = some OpFamily.subcategory ∨
      opLookup (tokenKey t) = some OpFamily.tag)
    (hval : tokenVal t = "") :
    ((pre ++ t :: suf).foldl parseStep (p, f)).1 =
      p ++ pre.filter isPlainTok ++ t :: suf.filter isPlainTok ∧
    ((pre ++ t :: suf).foldl parseStep (p, f)).2 =
      ((pre ++ suf).foldl parseStep (p, f)).2 ∧
    parse_query "cat: vlan" = ("cat: vlan", {}) := by
  obtain ⟨hplain, hfilt⟩ := plainTok_of_empty_val t hcolon hfam hval
  refine ⟨?_, ?_, by decide⟩
  · rw [foldl_parse]
    simp [List.filter_append, List.filter_cons, hplain]
  · rw [foldl_parse, foldl_parse]
    simp [List.foldl_append, hfilt]

/-- Witness for C9 at the token `"cat:"` inside the query
`"cat: vlan"`. -/
theorem c9_empty_operator_fallback_witness :
    (["cat:", "vlan"].foldl parseStep ([], {})).1 = ["cat:", "vlan"] ∧
    parse_query "cat: vlan" = ("cat: vlan", {}) := by
  have h := c9_empty_operator_fallback "cat:" [] ["vlan"] [] {}
    (by decide) (Or.inl (by decide)) (by decide)
  refine ⟨?_, h.2.2⟩
  have h1 := h.1
  simpa using h1

/-! ## Sorting lemmas -/

theorem insertSorted_perm (le : α → α → Bool) (x : α) (l : List α) :
    (insertSorted le x l).Perm (x :: l) := by
  induction l with
  | nil => simp [insertSorted]
  | cons y ys ih =>
    by_cases h : le x y = true
    · simp [insertSorted, h]
    · simp only [insertSorted, h, if_false, Bool.false_eq_true]
      exact (ih.cons y).trans (List.Perm.swap x y ys)

theorem sortRows_perm (le : α → α → Bool) (l : List α) :
    (sortRows le l).Perm l := by
  induction l with
  | nil => exact List.Perm.refl _
  | cons x xs ih => exact (insertSorted_perm le x (sortRows le xs)).trans (ih.cons x)

theorem mem_insertSorted (le : α → α → Bool) (x : α) (l : List α) (a : α) :
    a ∈ insertSorted le x l ↔ a = x ∨ a ∈ l := by
  have := (insertSorted_perm le x l).mem_iff (a := a)
  simpa using this

theorem mem_sortRows (le : α → α → Bool) (l : List α) (a : α) :
    a ∈ sortRows le l ↔ a ∈ l :=
  (sortRows_perm le l).mem_iff

theorem pairwise_insertSorted (le : α → α → Bool) (R : α → α → Prop)
    (hbr1 : ∀ a b, le a b = true → R a b)
    (hbr2 : ∀ a b, le a b = false → R b a)
    (htrans : ∀ a b c, R a b → R b c → R a c)
    (x : α) (l : List α) (h : l.Pairwise R) :
    (insertSorted le x l).Pairwise R := by
  induction l with
  | nil => simp [insertSorted]
  | cons y ys ih =>
    rcases List.pairwise_cons.mp h with ⟨hy, hys⟩
    by_cases hxy : le x y = true
    · simp only [insertSorted, hxy, if_true]
      refine List.pairwise_cons.mpr ⟨?_, h⟩
      intro b hb
      rcases List.mem_cons.mp hb with rfl | hb
      · exact hbr1 _ _ hxy
      · exact htrans _ _ _ (hbr1 _ _ hxy) (hy b hb)
    · simp only [insertSorted, hxy, if_false, Bool.false_eq_true]
      refine List.pairwise_cons.mpr ⟨?_, ih hys⟩
      intro b hb
      rcases (mem_insertSorted le x ys b).mp hb with rfl | hb
      · exact hbr2 _ _ (by simpa using hxy)
      · exact hy b hb

theorem pairwise_sortRows (le : α → α → Bool) (R : α → α → Prop)
    (hbr1 : ∀ a b, le a b = true → R a b)
    (hbr2 : ∀ a b, le a b = false → R b a)
    (htrans : ∀ a b c, R a b → R b c → R a c)
    (l : List α) : (sortRows le l).Pairwise R := by
  induction l with
  | nil => simp [sortRows]
  | cons x xs ih =>
    exact pairwise_insertSorted le R hbr1 hbr2 htrans x _ ih

/-! ## Favourites-first ordering -/

/-- Favourites precede non-favourites: the relation asserted pairwise
along a result list. -/
def favFirst (a b : Entry) : Prop :=
  b.is_favorite = true → a.is_favorite = true

theorem favFirst_trans (a b c : Entry) (h1 : favFirst a b)
    (h2 : favFirst b c) : favFirst a c :=
  fun hc => h1 (h2 hc)

theorem favRank_le_favFirst {a b : Entry} (h : favRank a ≤ favRank b) :
    favFirst a b := by
  intro hb
  by_cases ha : a.is_favorite = true
  · exact ha
  · have ha' : a.is_favorite = false := by simpa using ha
    simp [favRank, ha', hb] at h

theorem entryLe_true_fav {a b : Entry} (h : entryLe a b = true) :
    favFirst a b := by
  apply favRank_le_favFirst
  unfold entryLe at h
  by_cases hne : favRank a ≠ favRank b
  · rw [if_pos hne] at h
    exact Nat.le_of_lt (of_decide_eq_true h)
  · push_neg at hne
    omega

theorem entryLe_false_fav {a b : Entry} (h : entryLe a b = false) :
    favFirst b a := by
  apply favRank_le_favFirst
  unfold entryLe at h
  by_cases hne : favRank a ≠ favRank b
  · rw [if_pos hne] at h
    have := of_decide_eq_false h
    omega
  · push_neg at hne
    omega

theorem ftsLe_true_fav {env : FtsEnv} {q : String} {a b : Entry}
    (h : ftsLe env q a b = true) : favFirst a b := by
  apply favRank_le_favFirst
  unfold ftsLe at h
  rcases Bool.or_eq_true_iff.mp h with h1 | h2
  · exact Nat.le_of_lt (of_decide_eq_true h1)
  · have h3 : favRank a = favRank b := by
      simp only [Bool.and_eq_true, beq_iff_eq] at h2
      exact h2.1
    omega

theorem ftsLe_false_fav {env : FtsEnv} {q : String} {a b : Entry}
    (h : ftsLe env q a b = false) : favFirst b a := by
  apply favRank_le_favFirst
  unfold ftsLe at h
  have h1 := (Bool.or_eq_false_iff.mp h).1
  have := of_decide_eq_false h1
  omega

theorem pairwise_finalQuery (store : List Entry) (cond : Entry → Bool) :
    (finalQuery store cond).Pairwise favFirst := by
  unfold finalQuery
  exact List.Pairwise.sublist (List.take_sublist _ _)
    (pairwise_sortRows entryLe favFirst (fun a b => entryLe_true_fav)
      (fun a b => entryLe_false_fav) favFirst_trans _)

theorem pairwise_ftsRows (env : FtsEnv) (q : String) (store : List Entry) :
    (ftsRows env q store).Pairwise favFirst := by
  unfold ftsRows
  exact List.Pairwise.sublist (List.take_sublist _ _)
    (pairwise_sortRows (ftsLe env q) favFirst (fun a b => ftsLe_true_fav)
      (fun a b => ftsLe_false_fav) favFirst_trans _)

/-! ## Branch analysis of `_search` -/

theorem searchE_empty_plain (env : FtsEnv) (store : List Entry)
    (query : String) {plain : String} {f : Filters}
    (h : parse_query (pyStripS query) = (plain, f)) (hp : plain = "") :
    searchE env store query = Except.ok (finalQuery store (structCond f)) := by
  unfold searchE
  dsimp only
  rw [h]
  simp [hp]

theorem searchE_fallback_eq (env : FtsEnv) (store : List Entry)
    (query : String) {plain : String} {f : Filters}
    (h : parse_query (pyStripS query) = (plain, f)) (hp : plain ≠ "")
    (hfall : (env.ok && f.isEmpty) = false ∨
      env.raises (fts_q plain) = true ∨
      ftsRows env (fts_q plain) store = []) :
    searchE env store query =
      Except.ok (finalQuery store (fun e => structCond f e && likeSix plain e)) := by
  unfold searchE
  dsimp only
  rw [h]
  rcases hfall with h1 | h2 | h3
  · simp [hp, h1]
  · by_cases hg : (env.ok && f.isEmpty) = true
    · simp [hp, hg, h2]
    · simp [hp, hg]
  · by_cases hg : (env.ok && f.isEmpty) = true
    · by_cases hr : env.raises (fts_q plain) = true
      · simp [hp, hg, hr]
      · simp [hp, hg, hr, h3]
    · simp [hp, hg]

theorem searchE_fts_eq (env : FtsEnv) (store : List Entry)
    (query : String) {plain : String} {f : Filters}
    (h : parse_query (pyStripS query) = (plain, f)) (hp : plain ≠ "")
    (hok : env.ok = true) (hemp : f.isEmpty = true)
    (hr : env.raises (fts_q plain) = false)
    (hne : ftsRows env (fts_q plain) store ≠ []) :
    searchE env store query = Except.ok (ftsRows env (fts_q plain) store) := by
  unfold searchE
  dsimp only
  rw [h]
  simp [hp, hok, hemp, hr, hne]

theorem searchE_result_shape (env : FtsEnv) (store : List Entry)
    (query : String) :
    ∃ rows, searchE env store query = Except.ok rows ∧
      rows.Pairwise favFirst := by
  have h : parse_query (pyStripS query) =
      ((parse_query (pyStripS query)).1, (parse_query (pyStripS query)).2) := rfl
  by_cases hp : (parse_query (pyStripS query)).1 = ""
  · exact ⟨_, searchE_empty_plain env store query h hp, pairwise_finalQuery _ _⟩
  · by_cases hg : (env.ok && (parse_query (pyStripS query)).2.isEmpty) = true
    · by_cases hr : env.raises (fts_q (parse_query (pyStripS query)).1) = true
      · exact ⟨_, searchE_fallback_eq env store query h hp (Or.inr (Or.inl hr)),
          pairwise_finalQuery _ _⟩
      · by_cases hne :
            ftsRows env (fts_q (parse_query (pyStripS query)).1) store = []
        · exact ⟨_, searchE_fallback_eq env store query h hp
            (Or.inr (Or.inr hne)), pairwise_finalQuery _ _⟩
        · refine ⟨_, searchE_fts_eq env store query h hp ?_ ?_ ?_ hne,
            pairwise_ftsRows _ _ _⟩
          · exact (Bool.and_eq_true _ _ ▸ hg).1
          · exact (Bool.and_eq_true _ _ ▸ hg).2
          · simpa using hr
    · exact ⟨_, searchE_fallback_eq env store query h hp
        (Or.inl (by simpa using hg)), pairwise_finalQuery _ _⟩

theorem search_eq_of_searchE {env : FtsEnv} {store : List Entry}
    {query : String} {rows : List Entry}
    (h : searchE env store query = Except.ok rows) :
    search env store query = rows := by
  unfold search
  rw [h]

/-- Claim C2: for every raw query string, every store state and every
behaviour of the text index, in the row sequence returned by `_search`
every entry with `is_favorite` true precedes every entry with
`is_favorite` false, whichever resolution branch (indexed search,
substring fallback, or return-all on empty query) produced the
result. -/
theorem c2_favorites_first_ordering (env : FtsEnv) (store : List Entry)
    (query : String) :
    (search env store query).Pairwise favFirst := by
  obtain ⟨rows, hok, hpw⟩ := searchE_result_shape env store query
  rw [search_eq_of_searchE hok]
  exact hpw

/-- Claim C10: for every input query string — however it mixes quotes,
FTS5 operators, SQL LIKE wildcards or colons — and every behaviour of
the index layer, `_search` returns a (possibly empty) row list and
never propagates an exception: the full-text attempt is guarded by
try/except and the parameterized LIKE path is total. -/
theorem c10_search_never_raises (env : FtsEnv) (store : List Entry)
    (query : String) :
    (searchE env store query).isOk = true := by
  obtain ⟨rows, hok, _⟩ := searchE_result_shape env store query
  rw [hok]
  rfl

/-- Claim C3: the indexed full-text search is consulted only when the
plain text is non-empty, no structured filter is present and the index
is available — in every other state the result does not depend on the
index oracle at all; whenever the attempt raises, the index is
unavailable, or it returns zero rows, the resolver returns exactly the
substring-fallback result; and the resolver always returns a row list,
so no index-layer error reaches the caller. -/
theorem c3_fts_guard_and_fallthrough (env : FtsEnv) (store : List Entry)
    (query : String) (plain : String) (f : Filters)
    (h : parse_query (pyStripS query) = (plain, f)) :
    (¬(plain ≠ "" ∧ f.isEmpty = true ∧ env.ok = true) →
      ∀ raises2 rank2, searchE env store query =
        searchE ⟨env.ok, raises2, rank2⟩ store query) ∧
    (plain ≠ "" →
      ((env.ok && f.isEmpty) = false ∨ env.raises (fts_q plain) = true ∨
        ftsRows env (fts_q plain) store = []) →
      searchE env store query =
        Except.ok (finalQuery store
          (fun e => structCond f e && likeSix plain e))) ∧
    (searchE env store query).isOk = true := by
  refine ⟨?_, ?_, ?_⟩
  · intro hno raises2 rank2
    by_cases hp : plain = ""
    · rw [searchE_empty_plain env store query h hp,
        searchE_empty_plain ⟨env.ok, raises2, rank2⟩ store query h hp]
    · have hg : (env.ok && f.isEmpty) = false := by
        by_cases hok : env.ok = true
        · by_cases hemp : f.isEmpty = true
          · exact absurd ⟨hp, hemp, hok⟩ hno
          · simp [hok, Bool.not_eq_true _ ▸ hemp]
        · simp [Bool.not_eq_true _ ▸ hok]
      rw [searchE_fallback_eq env store query h hp (Or.inl hg),
        searchE_fallback_eq ⟨env.ok, raises2, rank2⟩ store query h hp
          (Or.inl hg)]
  · intro hp hfall
    exact searchE_fallback_eq env store query h hp hfall
  · obtain ⟨rows, hok, _⟩ := searchE_result_shape env store query
    rw [hok]
    rfl

/-- Witness for C3: with the index unavailable and the query `"x"`, the
resolver returns the (empty) substring-fallback result and reports no
error. -/
theorem c3_fts_guard_and_fallthrough_witness :
    searchE ⟨false, fun _ => false, fun _ _ => none⟩ [] "x" =
      Except.ok [] ∧
    (searchE ⟨false, fun _ => false, fun _ _ => none⟩ [] "x").isOk =
      true := by
  have h := c3_fts_guard_and_fallthrough
    ⟨false, fun _ => false, fun _ _ => none⟩ [] "x" "x" {} (by decide)
  refine ⟨?_, h.2.2⟩
  have h2 := h.2.1 (by decide) (Or.inl (by decide))
  simpa [finalQuery, sortRows] using h2

/-! ## Case-insensitive substring containment (the spec-side notion of
§4.2 step 5) -/

/-- Literal (character-equal) match of `pat` at the head of the second
list. -/
def leadsWith : List Char → List Char → Bool
  | [], _ => true
  | _ :: _, [] => false
  | p :: ps, c :: ss => p == c && leadsWith ps ss

/-- Literal occurrence of `n` anywhere inside the second list. -/
def occursIn (n : List Char) : List Char → Bool
  | [] => leadsWith n []
  | c :: rest => leadsWith n (c :: rest) || occursIn n rest

/-- Modelled from the spec: "case-insensitive substring match of
`plain_text`" against one field (ASCII case folding, no wildcards). -/
def ciSubstring (needle hay : String) : Bool :=
  occursIn (pyLower needle.data) (pyLower hay.data)

/-- `ciSubstring` over a nullable field: NULL contains nothing. -/
def ciSubstringOpt (needle : String) : Option String → Bool
  | none => false
  | some s => ciSubstring needle s

/-- The claim's condition: `plain` occurs as a case-insensitive
substring of at least one of the six searched fields. -/
def sixFieldSub (plain : String) (e : Entry) : Bool :=
  ciSubstring plain e.title || ciSubstring plain e.command ||
  ciSubstringOpt plain e.description || ciSubstringOpt plain e.tags ||
  ciSubstring plain e.category || ciSubstringOpt plain e.subcategory

/-- A string free of the SQLite LIKE wildcards `%` and `_`. -/
def wildcardFree (s : String) : Bool :=
  s.data.all (fun c => c ≠ '%' && c ≠ '_')

theorem likeMatch_percent_only (s : List Char) : likeMatch ['%'] s = true := by
  induction s with
  | nil => simp [likeMatch]
  | cons c ss ih => simp [likeMatch, ih]

theorem likeMatch_literal_percent (p : List Char)
    (hclean : p.all (fun c => c ≠ '%' && c ≠ '_') = true) (s : List Char) :
    likeMatch (p ++ ['%']) s = leadsWith (pyLower p) (pyLower s) := by
  induction p generalizing s with
  | nil => simp [pyLower, leadsWith, likeMatch_percent_only s]
  | cons a as ih =>
    simp only [List.all_cons, Bool.and_eq_true, decide_eq_true_eq] at hclean
    obtain ⟨⟨ha1, ha2⟩, htail⟩ := hclean
    cases s with
    | nil => simp [likeMatch, pyLower, leadsWith, ha1]
    | cons c ss =>
      simp [likeMatch, pyLower, leadsWith, ha1, ha2, ih htail ss]

theorem likeMatch_likePat_chars (p : List Char)
    (hclean : p.all (fun c => c ≠ '%' && c ≠ '_') = true) (s : List Char) :
    likeMatch ('%' :: (p ++ ['%'])) s = occursIn (pyLower p) (pyLower s) := by
  induction s with
  | nil =>
    have h := likeMatch_literal_percent p hclean []
    simpa [likeMatch, occursIn] using h
  | cons c ss ih =>
    have h := likeMatch_literal_percent p hclean (c :: ss)
    unfold pyLower at ih h ⊢
    simp [likeMatch, occursIn, h, ih]

/-- On wildcard-free plain text, every `LIKE '%plain%'` condition of the
fallback is exactly case-insensitive substring containment. -/
theorem likeSix_eq_sixFieldSub (plain : String)
    (hclean : wildcardFree plain = true) (e : Entry) :
    likeSix plain e = sixFieldSub plain e := by
  have hp := likeMatch_likePat_chars plain.data hclean
  unfold likeSix sixFieldSub likePat optLike ciSubstringOpt ciSubstring
  rw [hp, hp, hp]
  cases e.description <;> cases e.tags <;> cases e.subcategory <;>
    simp [hp, ciSubstring]

/-! ## Claim C1 -/

/-- An index-unavailable oracle (`_fts_ok` returns false). -/
def noFts : FtsEnv :=
  ⟨false, fun _ => false, fun _ _ => none⟩

/-- A sample stored row whose title is `"abc"`. -/
def eAbc : Entry :=
  { id := 1, category := "Linux", subcategory := some "Disk",
    title := "abc", command := "df -h", description := some "d",
    tags := some "t", is_favorite := false,
    created_at := "c", updated_at := "u" }

/-- Counterexample to claim C1 as stated: the query `"a_c"` reaches the
substring-fallback branch (index unavailable, no filters), and the row
titled `"abc"` is returned — because the fallback feeds the plain text
unescaped into `LIKE '%a_c%'`, where `_` is a single-character
wildcard — yet `"a_c"` does not occur as a case-insensitive substring
of any of the six searched fields of that row. -/
theorem c1_counterexample :
    search noFts [eAbc] "a_c" = [eAbc] ∧
    sixFieldSub "a_c" eAbc = false := by
  constructor
  · have h := @searchE_fallback_eq noFts [eAbc] "a_c" "a_c" {}
      (by decide) (by decide) (Or.inl (by decide))
    rw [search_eq_of_searchE h]
    have h1 : structCond {} eAbc = true := by decide
    have h2 : likeSix "a_c" eAbc = true := by
      simp [likeSix, optLike, likePat, eAbc, likeMatch]
    simp [finalQuery, List.filter_cons, h1, h2, sortRows, insertSorted]
  · decide

/-- Claim C1 (amended): for every query whose resolution reaches the
substring-fallback branch, the returned entries are exactly the stored
entries matched by the SQL pattern `LIKE '%plain%'` (with `%`/`_`
acting as wildcards) on at least one of the six searched fields, ANDed
with the structured filter conditions and capped at 50: every returned
entry is such a match, the number of returned rows is the number of
matches capped at 50, and whenever at most 50 entries match the
returned entries are exactly the matches; when `plain_text` contains
no LIKE wildcard, the pattern condition coincides with case-insensitive
substring containment on the six fields. -/
theorem c1_amended_fallback_membership (env : FtsEnv) (store : List Entry)
    (query : String) (plain : String) (f : Filters)
    (h : parse_query (pyStripS query) = (plain, f))
    (hp : plain ≠ "")
    (hfall : (env.ok && f.isEmpty) = false ∨
      env.raises (fts_q plain) = true ∨
      ftsRows env (fts_q plain) store = []) :
    (∀ e ∈ search env store query,
      e ∈ store ∧ structCond f e = true ∧ likeSix plain e = true) ∧
    (search env store query).length =
      min ((store.filter
        (fun e => structCond f e && likeSix plain e)).length) 50 ∧
    ((store.filter
        (fun e => structCond f e && likeSix plain e)).length ≤ 50 →
      ∀ e, e ∈ search env store query ↔
        e ∈ store ∧ structCond f e = true ∧ likeSix plain e = true) ∧
    (wildcardFree plain = true →
      ∀ e, likeSix plain e = sixFieldSub plain e) := by
  have hres := search_eq_of_searchE (searchE_fallback_eq env store query h hp hfall)
  have hperm := sortRows_perm entryLe
    (store.filter (fun e => structCond f e && likeSix plain e))
  refine ⟨?_, ?_, ?_, ?_⟩
  · intro e he
    rw [hres] at he
    unfold finalQuery at he
    have he2 := List.mem_of_mem_take he
    rw [mem_sortRows, List.mem_filter] at he2
    rcases he2 with ⟨hmem, hcond⟩
    rw [Bool.and_eq_true] at hcond
    exact ⟨hmem, hcond.1, hcond.2⟩
  · rw [hres]
    unfold finalQuery
    rw [List.length_take, hperm.length_eq]
    exact Nat.min_comm _ _
  · intro hcap e
    rw [hres]
    unfold finalQuery
    rw [List.take_of_length_le (by rw [hperm.length_eq]; exact hcap)]
    rw [mem_sortRows, List.mem_filter, Bool.and_eq_true]
  · intro hclean e
    exact likeSix_eq_sixFieldSub plain hclean e

/-- Witness for the amended C1 at the query `"abc"` over a one-row
store with the index unavailable. -/
theorem c1_amended_fallback_membership_witness :
    eAbc ∈ search noFts [eAbc] "abc" ∧
    likeSix "abc" eAbc = sixFieldSub "abc" eAbc := by
  have hth := c1_amended_fallback_membership noFts [eAbc] "abc" "abc" {}
    (by decide) (by decide) (Or.inl (by decide))
  have h2 : likeSix "abc" eAbc = true := by
    simp [likeSix, optLike, likePat, eAbc, likeMatch]
  constructor
  · have hcap : (([eAbc] : List Entry).filter
        (fun e => structCond {} e && likeSix "abc" e)).length ≤ 50 := by
      have h1 : structCond {} eAbc = true := by decide
      simp [List.filter_cons, h1, h2]
    exact (hth.2.2.1 hcap eAbc).mpr ⟨List.mem_singleton.mpr rfl, by decide, h2⟩
  · exact hth.2.2.2 (by decide) eAbc

/-! ## The store with its derived text index (db_init.py schema and
triggers; mutation operations of manager.py / main.py) -/

/-- One record of the `commands_fts` index (six indexed columns,
addressed by rowid). -/
structure FtsRecord where
  rowid : Nat
  title : String
  command : String
  description : Option String
  tags : Option String
  category : String
  subcategory : Option String
deriving DecidableEq

/-- The index record the schema triggers derive from a `commands`
row. -/
def ftsProj (e : Entry) : FtsRecord :=
  { rowid := e.id, title := e.title, command := e.command,
    description := e.description, tags := e.tags,
    category := e.category, subcategory := e.subcategory }

/-- The database: the `commands` table, the `commands_fts` index and
the AUTOINCREMENT counter. -/
structure VaultDb where
  commands : List Entry
  fts : List FtsRecord
  nextId : Nat
deriving DecidableEq

/-- The spec's error taxonomy (§7). -/
inductive VaultError
  | validation
  | notFound
  | storeUnreachable
deriving DecidableEq

/-- The field dict `d` passed to `insert_cmd` / `update_cmd` (all
fields provided as strings by the dialog, import or duplicate paths). -/
structure Draft where
  category : String
  subcategory : String
  title : String
  command : String
  description : String
  tags : String
  is_favorite : Bool
deriving DecidableEq

/-- The row created by `INSERT INTO commands(category,...,is_favorite)`
with schema defaults for the timestamps. -/
def draftEntry (d : Draft) (id : Nat) (now : String) : Entry :=
  { id := id, category := d.category, subcategory := some d.subcategory,
    title := d.title, command := d.command,
    description := some d.description, tags := some d.tags,
    is_favorite := d.is_favorite, created_at := now, updated_at := now }

/-- `insert_cmd` of manager.py: insert the row; the `commands_ai`
trigger synchronously adds the index record. -/
def insert_cmd (d : Draft) (now : String) (db : VaultDb) : VaultDb :=
  let e := draftEntry d db.nextId now
  { commands := db.commands ++ [e], fts := db.fts ++ [ftsProj e],
    nextId := db.nextId + 1 }

/-- The row produced by `update_cmd`'s UPDATE on an existing row:
overwrite all mutable fields and refresh `updated_at`; `id` and
`created_at` are kept. -/
def applyDraft (d : Draft) (now : String) (e : Entry) : Entry :=
  { e with
    category := d.category,
    subcategory := some d.subcategory,
    title := d.title,
    command := d.command,
    description := some d.description,
    tags := some d.tags,
    is_favorite := d.is_favorite,
    updated_at := now }

/-- `update_cmd` of manager.py: `UPDATE commands SET ... WHERE id=?`;
the `commands_au` trigger deletes the old index record for each updated
row and inserts the new one. -/
def update_cmd (i : Nat) (d : Draft) (now : String) (db : VaultDb) : VaultDb :=
  { db with
    commands := db.commands.map
      (fun e => if e.id = i then applyDraft d now e else e),
    fts := db.fts.filter (fun r => r.rowid ≠ i) ++
      (db.commands.filter (fun e => e.id = i)).map
        (fun e => ftsProj (applyDraft d now e)) }

/-- `delete_cmd` of manager.py: `DELETE FROM commands WHERE id=?`; the
`commands_ad` trigger removes the index record.  A DELETE matching no
row raises nothing, so every call returns `ok`. -/
def delete_cmd (i : Nat) (db : VaultDb) : Except VaultError VaultDb :=
  Except.ok { db with
    commands := db.commands.filter (fun e => e.id ≠ i),
    fts := db.fts.filter (fun r => r.rowid ≠ i) }

/-- `_toggle_favorite` of main.py: flip `is_favorite` and refresh
`updated_at` for the matching row; the `commands_au` trigger re-syncs
the index record.  An UPDATE matching no row raises nothing, so every
call returns `ok`. -/
def toggle_favorite (i : Nat) (now : String) (db : VaultDb) :
    Except VaultError VaultDb :=
  Except.ok { db with
    commands := db.commands.map
      (fun e => if e.id = i then
        { e with is_favorite := !e.is_favorite, updated_at := now } else e),
    fts := db.fts.filter (fun r => r.rowid ≠ i) ++
      (db.commands.filter (fun e => e.id = i)).map
        (fun e => ftsProj
          { e with is_favorite := !e.is_favorite, updated_at := now }) }

/-- The index-consistency invariant: `commands_fts` holds exactly one
record per stored row, with the six indexed fields equal to that row's
current values (multiset equality against the projection of the
table). -/
def ftsInv (db : VaultDb) : Prop :=
  db.fts.Perm (db.commands.map ftsProj)

/-! ## Dialog validation, import, and the GUI actions (manager.py) -/

/-- `CommandDialog._save`: strip category, title and command; reject
(returning no draft, performing no write) if any of the three is empty;
otherwise produce the stripped draft. -/
def dialog_save (cat sub title cmd desc tags : String) (fav : Bool) :
    Option Draft :=
  let c := pyStripS cat
  let t := pyStripS title
  let m := pyStripS cmd
  if c = "" || t = "" || m = "" then none
  else some
    { category := c, subcategory := pyStripS sub, title := t,
      command := m, description := pyStripS desc, tags := pyStripS tags,
      is_favorite := fav }

/-- `cmd_add` of manager.py: insert only when the dialog produced a
draft. -/
def cmd_add (cat sub title cmd desc tags : String) (fav : Bool)
    (now : String) (db : VaultDb) : VaultDb :=
  match dialog_save cat sub title cmd desc tags fav with
  | none => db
  | some d => insert_cmd d now db

/-- `cmd_edit` of manager.py: update the selected row only when the
dialog produced a draft. -/
def cmd_edit (i : Nat) (cat sub title cmd desc tags : String) (fav : Bool)
    (now : String) (db : VaultDb) : VaultDb :=
  match dialog_save cat sub title cmd desc tags fav with
  | none => db
  | some d => update_cmd i d now db

/-- One element of the JSON array read by `cmd_import`: any of the
keys may be absent. -/
structure JsonEntry where
  category : Option String
  subcategory : Option String
  title : Option String
  command : Option String
  description : Option String
  tags : Option String
  is_favorite : Option Bool
deriving DecidableEq

/-- The draft `cmd_import` builds with `entry.get(...)` defaults — note
the default for `command` is the empty string. -/
def importDraft (j : JsonEntry) : Draft :=
  { category := j.category.getD "Imported",
    subcategory := j.subcategory.getD "",
    title := j.title.getD "Untitled",
    command := j.command.getD "",
    description := j.description.getD "",
    tags := j.tags.getD "",
    is_favorite := j.is_favorite.getD false }

/-- One `cmd_import` loop iteration: `insert_cmd` on the defaulted
draft, with no validation. -/
def import_insert (j : JsonEntry) (now : String) (db : VaultDb) : VaultDb :=
  insert_cmd (importDraft j) now db

/-! ## Index-consistency lemmas -/


theorem commands_update_perm (i : Nat) (g : Entry → Entry) (l : List Entry) :
    (l.map (fun e => if e.id = i then g e else e)).Perm
      (l.filter (fun e => e.id ≠ i) ++
        (l.filter (fun e => e.id = i)).map g) := by
  induction l with
  | nil => simp
  | cons x xs ih =>
    by_cases hx : x.id = i
    · simp only [List.map_cons, List.filter_cons, hx, ne_eq, decide_not] at ih ⊢
      norm_num
      exact (ih.cons (g x)).trans List.perm_middle.symm
    · simp only [List.map_cons, List.filter_cons, ne_eq, decide_not] at ih ⊢
      norm_num [hx]
      exact ih

theorem fts_filter_proj_ne (i : Nat) (l : List Entry) :
    (l.map ftsProj).filter (fun r => r.rowid ≠ i) =
      (l.filter (fun e => e.id ≠ i)).map ftsProj := by
  induction l with
  | nil => rfl
  | cons x xs ih =>
    simp only [List.map_cons, List.filter_cons, ne_eq, decide_not] at ih ⊢
    by_cases hx : x.id = i
    · have hr : (ftsProj x).rowid = i := hx
      norm_num [hx, hr, ih]
    · have hr : ¬ (ftsProj x).rowid = i := hx
      norm_num [hx, hr, ih]

/-- Claim C4: every mutation of the primary command store — insert,
update, delete — synchronously updates the derived text index (the
schema triggers `commands_ai` / `commands_au` / `commands_ad`): if the
index held exactly one record per stored entry with the six indexed
fields equal to that entry's current values, the same holds after the
operation completes. -/
theorem c4_index_sync (db : VaultDb) (d : Draft) (now : String) (i : Nat)
    (hinv : ftsInv db) :
    ftsInv (insert_cmd d now db) ∧
    ftsInv (update_cmd i d now db) ∧
    (∀ db2, delete_cmd i db = Except.ok db2 → ftsInv db2) := by
  refine ⟨?_, ?_, ?_⟩
  · unfold ftsInv insert_cmd
    simp only [List.map_append, List.map_cons, List.map_nil]
    exact hinv.append (List.Perm.refl _)
  · unfold ftsInv update_cmd
    have h1 : (db.fts.filter (fun r => r.rowid ≠ i)).Perm
        ((db.commands.filter (fun e => e.id ≠ i)).map ftsProj) := by
      have h := hinv.filter (fun r => decide (r.rowid ≠ i))
      rwa [fts_filter_proj_ne] at h
    refine (h1.append (List.Perm.refl
      ((db.commands.filter (fun e => e.id = i)).map
        (fun e => ftsProj (applyDraft d now e))))).trans ?_
    have h2 := (commands_update_perm i (applyDraft d now) db.commands).map ftsProj
    simpa [Function.comp] using h2.symm
  · intro db2 hdb2
    unfold delete_cmd at hdb2
    injection hdb2 with hdb2
    subst hdb2
    unfold ftsInv
    have h := hinv.filter (fun r => decide (r.rowid ≠ i))
    rwa [fts_filter_proj_ne] at h

/-- Witness for C4 starting from the empty, trivially consistent
store. -/
theorem c4_index_sync_witness :
    ftsInv (insert_cmd ⟨"Cisco", "VLAN", "Show", "run", "", "", false⟩
      "t" ⟨[], [], 1⟩) := by
  have h := c4_index_sync ⟨[], [], 1⟩
    ⟨"Cisco", "VLAN", "Show", "run", "", "", false⟩ "t" 3
    (List.Perm.refl _)
  exact h.1

/-- Counterexample to claim C5 as stated: the import path
(`cmd_import`) builds its draft with `entry.get("command", "")` and
inserts it without any validation, so importing a JSON object with no
`command` key successfully creates a stored entry whose `command` field
is the empty string, and no ValidationError is raised anywhere. -/
theorem c5_counterexample :
    ((import_insert ⟨none, none, none, none, none, none, none⟩ "t0"
        ⟨[], [], 1⟩).commands.map (fun e => e.command)) = [""] ∧
    ((import_insert ⟨none, none, none, none, none, none, none⟩ "t0"
        ⟨[], [], 1⟩).commands.map (fun e => (e.category, e.title))) =
      [("Imported", "Untitled")] := by
  exact ⟨rfl, rfl⟩

/-- Claim C5 (amended): creates and updates that go through the editor
dialog (`CommandDialog._save`) have non-empty stripped category, title
and command — a draft with any of the three empty is rejected with a
warning (no exception object) and performs no write in `cmd_add` or
`cmd_edit`; the JSON import path, however, performs no validation and
inserts entries whose `command` field may be empty. -/
theorem c5_amended_dialog_validation (cat sub title cmd desc tags : String)
    (fav : Bool) :
    (∀ d, dialog_save cat sub title cmd desc tags fav = some d →
      d.category ≠ "" ∧ d.title ≠ "" ∧ d.command ≠ "") ∧
    (dialog_save cat sub title cmd desc tags fav = none →
      (∀ now db, cmd_add cat sub title cmd desc tags fav now db = db) ∧
      (∀ i now db, cmd_edit i cat sub title cmd desc tags fav now db = db)) ∧
    (dialog_save cat sub title cmd desc tags fav = none ↔
      (pyStripS cat = "" ∨ pyStripS title = "" ∨ pyStripS cmd = "")) ∧
    ((import_insert ⟨none, none, none, none, none, none, none⟩ "t0"
        ⟨[], [], 1⟩).commands.map (fun e => e.command)) = [""] := by
  refine ⟨?_, ?_, ?_, rfl⟩
  · intro d hd
    unfold dialog_save at hd
    dsimp only at hd
    split at hd
    · exact absurd hd (by simp)
    · rename_i hcond
      simp only [Option.some.injEq] at hd
      subst hd
      simp only [Bool.or_eq_true, decide_eq_true_eq] at hcond
      refine ⟨?_, ?_, ?_⟩ <;> simp <;> tauto
  · intro hnone
    exact ⟨fun now db => by unfold cmd_add; rw [hnone],
      fun i now db => by unfold cmd_edit; rw [hnone]⟩
  · unfold dialog_save
    dsimp only
    split
    · rename_i hcond
      simp only [Bool.or_eq_true, decide_eq_true_eq] at hcond
      simp only [true_iff]
      tauto
    · rename_i hcond
      simp only [Bool.or_eq_true, decide_eq_true_eq] at hcond
      simp only [reduceCtorEq, false_iff]
      tauto

/-- Witness for the amended C5: an all-empty dialog writes nothing, and
a valid dialog draft has its three required fields non-empty. -/
theorem c5_amended_dialog_validation_witness :
    cmd_add "" "" "" "" "" "" false "t" ⟨[], [], 1⟩ = ⟨[], [], 1⟩ ∧
    (("Cisco" : String) ≠ "" ∧ ("Show" : String) ≠ "" ∧
      ("run" : String) ≠ "") := by
  constructor
  · exact (((c5_amended_dialog_validation "" "" "" "" "" "" false).2.1
      (by decide)).1 "t" ⟨[], [], 1⟩)
  · exact (c5_amended_dialog_validation " Cisco " "" "Show" "run" "" ""
      false).1 ⟨"Cisco", "", "Show", "run", "", "", false⟩ (by decide)

/-- Counterexample to claim C6 as stated: the source defines no
NotFoundError — `DELETE`/`UPDATE` statements matching no row complete
silently — so deleting or favourite-toggling an id absent from the
store returns successfully (and leaves the store unchanged) instead of
failing. -/
theorem c6_counterexample :
    delete_cmd 7 ⟨[], [], 1⟩ = Except.ok ⟨[], [], 1⟩ ∧
    toggle_favorite 7 "t" ⟨[], [], 1⟩ = Except.ok ⟨[], [], 1⟩ ∧
    delete_cmd 7 ⟨[], [], 1⟩ ≠ Except.error VaultError.notFound ∧
    toggle_favorite 7 "t" ⟨[], [], 1⟩ ≠ Except.error VaultError.notFound := by
  exact ⟨rfl, rfl, by simp [delete_cmd], by simp [toggle_favorite]⟩

/-- Claim C6 (amended): for every id not present in the store,
`delete_cmd` and `toggle_favorite` complete without raising any error
and have no effect whatsoever on the store's contents (no
NotFoundError exists in the source). -/
theorem c6_amended_absent_id_noop (i : Nat) (db : VaultDb) (now : String)
    (habs : ∀ e ∈ db.commands, e.id ≠ i) (hinv : ftsInv db) :
    delete_cmd i db = Except.ok db ∧
    toggle_favorite i now db = Except.ok db := by
  have hfts : ∀ r ∈ db.fts, r.rowid ≠ i := by
    intro r hr
    rcases List.mem_map.mp (hinv.mem_iff.mp hr) with ⟨e, he, hre⟩
    subst hre
    simpa [ftsProj] using habs e he
  have h1 : db.commands.filter (fun e => e.id ≠ i) = db.commands :=
    List.filter_eq_self.mpr (fun a ha => by simpa using habs a ha)
  have h2 : db.fts.filter (fun r => r.rowid ≠ i) = db.fts :=
    List.filter_eq_self.mpr (fun r hr => by simpa using hfts r hr)
  have h3 : db.commands.filter (fun e => e.id = i) = [] :=
    List.filter_eq_nil_iff.mpr (fun a ha => by simpa using habs a ha)
  have h4 : db.commands.map (fun e => if e.id = i then
      { e with is_favorite := !e.is_favorite, updated_at := now } else e) =
      db.commands := by
    rw [List.map_congr_left (fun e he => if_neg (habs e he))]
    simp
  constructor
  · unfold delete_cmd
    rw [h1, h2]
  · unfold toggle_favorite
    rw [h2, h3, h4]
    simp

/-- Witness for the amended C6 at id 3 over a one-row consistent
store. -/
theorem c6_amended_absent_id_noop_witness :
    delete_cmd 3 ⟨[eAbc], [ftsProj eAbc], 2⟩ =
      Except.ok ⟨[eAbc], [ftsProj eAbc], 2⟩ ∧
    toggle_favorite 3 "t" ⟨[eAbc], [ftsProj eAbc], 2⟩ =
      Except.ok ⟨[eAbc], [ftsProj eAbc], 2⟩ := by
  exact c6_amended_absent_id_noop 3 ⟨[eAbc], [ftsProj eAbc], 2⟩ "t"
    (by decide) (List.Perm.refl _)

/-! ## Template expander (template_dialog.py and `_expand_template` of
main.py) -/

/-- The character class of `VAR_PATTERN`'s name group
`[a-zA-Z0-9_]`. -/
def isWordChar (c : Char) : Bool :=
  c.isAlphanum || c = '_'

/-- One token of the scanned command: a literal character, or a
placeholder `{name}`. -/
inductive Tok
  | lit (c : Char)
  | var (n : String)
deriving DecidableEq

/-- The regex scan of `VAR_PATTERN` (`\{([a-zA-Z0-9_]+)\}`) over the
command, keeping the unmatched characters: at each position try to
match an opening brace, a non-empty run of word characters and a
closing brace; on success continue after the match, otherwise emit one
literal character and retry at the next position (leftmost,
non-overlapping — `re.finditer` / `re.findall`). -/
def tokenize : List Char → List Tok
  | [] => []
  | c :: rest =>
    if c = '\x7b' then
      if (rest.takeWhile isWordChar).isEmpty then Tok.lit c :: tokenize rest
      else if (rest.dropWhile isWordChar).head? = some '\x7d' then
        Tok.var (String.mk (rest.takeWhile isWordChar)) ::
          tokenize (rest.dropWhile isWordChar).tail
      else Tok.lit c :: tokenize rest
    else Tok.lit c :: tokenize rest
termination_by l => l.length
decreasing_by
  all_goals simp only [List.length_cons, List.length_tail]
  all_goals have h2 := (rest.dropWhile_sublist isWordChar).length_le
  all_goals omega

/-- `VAR_PATTERN.findall(command)`: the matched names, in order. -/
def findall (l : List Char) : List String :=
  (tokenize l).filterMap (fun t => match t with
    | Tok.var n => some n
    | Tok.lit _ => none)

/-- Helper for `varsFound` (`dict.fromkeys`): drop later duplicates,
keeping first occurrences. -/
def dedupFirstGo (seen : List String) : List String → List String
  | [] => []
  | x :: xs =>
    if x ∈ seen then dedupFirstGo seen xs
    else x :: dedupFirstGo (x :: seen) xs

/-- `list(dict.fromkeys(VAR_PATTERN.findall(command)))` of
`template_dialog.run`: the distinct placeholder names in order of first
appearance. -/
def varsFound (l : List Char) : List String :=
  dedupFirstGo [] (findall l)

/-- The placeholder string `"{" + name + "}"` used by `on_ok`'s
`filled.replace(f"{{{var}}}", sv.get())`. -/
def ph (n : String) : List Char :=
  '\x7b' :: (n.data ++ ['\x7d'])

/-- Python `str.replace(pat, val)`: replace every non-overlapping
occurrence of `pat`, scanning left to right.  (`on_ok` only calls it
with the non-empty pattern `"{name}"`; an empty pattern is returned
unchanged here.) -/
def replaceAll (pat val : List Char) : List Char → List Char
  | [] => []
  | c :: rest =>
    if pat.isEmpty then c :: rest
    else if leadsWith pat (c :: rest) then
      val ++ replaceAll pat val ((c :: rest).drop pat.length)
    else c :: replaceAll pat val rest
termination_by l => l.length
decreasing_by
  · simp only [List.length_drop, List.length_cons]
    rename_i hpat _
    have : 1 ≤ pat.length := by
      cases pat with
      | nil => simp at hpat
      | cons p ps => simp
    omega
  · simp only [List.length_cons]
    omega

/-- `on_ok` of template_dialog.py: starting from the command,
sequentially `str.replace` each distinct `{name}` (in first-appearance
order — the iteration order of the `entries` dict) by the single value
entered for that name. -/
def onOk (vals : String → String) (command : String) : String :=
  String.mk ((varsFound command.data).foldl
    (fun s n => replaceAll (ph n) (vals n).data s) command.data)

/-- Modelled from the spec (§4.3, the contract of `expand`):
simultaneous substitution — every scanned placeholder occurrence
`{name}` is replaced by the value returned for `name`, all other text
is kept verbatim. -/
def expandSim (vals : String → String) (command : String) : String :=
  String.mk ((tokenize command.data).flatMap (fun t => match t with
    | Tok.lit c => [c]
    | Tok.var n => (vals n).data))

/-- `run` of template_dialog.py: no placeholders → the command is
returned unchanged without prompting; cancelled → no value (exit code
1); confirmed → the `on_ok` substitution (printed to stdout, exit code
0). -/
def dialog_run (vals : String → String) (cancelled : Bool)
    (command : String) : Option String :=
  if (varsFound command.data).isEmpty then some command
  else if cancelled then none
  else some (onOk vals command)

/-- `_expand_template` of main.py around the dialog subprocess: no
placeholders → unchanged; otherwise the subprocess output is used only
when the exit code is 0 AND the printed stdout is non-empty
(`if result.returncode == 0 and result.stdout:`) — in every other
case, including cancellation, the original command is returned. -/
def expand_template (command : String) (outcome : Option String) : String :=
  if (varsFound command.data).isEmpty then command
  else
    match outcome with
    | some out => if out.isEmpty then command else out
    | none => command

/-- Counterexample to claim C8 as stated: for the command `"{a}"`,
confirming the prompt with the empty string as the provided value makes
the dialog print the fully substituted command `""` with exit code 0,
but `_expand_template`'s guard `result.returncode == 0 and
result.stdout` treats the empty output as falsy and hands the caller
the original unexpanded command — confirmation with empty values is
not distinguished from cancellation here. -/
theorem c8_counterexample :
    expand_template "\x7ba\x7d" (dialog_run (fun _ => "") false "\x7ba\x7d") =
      "\x7ba\x7d" ∧
    onOk (fun _ => "") "\x7ba\x7d" = "" ∧
    ("\x7ba\x7d" : String) ≠ "" := by
  refine ⟨?_, ?_, by decide⟩
  · simp [expand_template, dialog_run, onOk, varsFound, findall, tokenize,
      dedupFirstGo, replaceAll, ph, leadsWith, isWordChar, String.isEmpty]
  · simp [onOk, varsFound, findall, tokenize, dedupFirstGo, replaceAll, ph,
      leadsWith, isWordChar]

/-- Claim C8 (amended): cancelling the variable prompt always hands the
caller the original unexpanded command; confirming hands the caller the
fully substituted command whenever that substituted command is
non-empty; when the substitution result is the empty string, the caller
receives the original command instead (the empty-stdout case is
conflated with cancellation). -/
theorem c8_amended_cancel_vs_confirm (vals : String → String)
    (command : String) :
    expand_template command (dialog_run vals true command) = command ∧
    (onOk vals command ≠ "" →
      expand_template command (dialog_run vals false command) =
        onOk vals command) ∧
    (onOk vals command = "" →
      expand_template command (dialog_run vals false command) = command) := by
  by_cases hv : (varsFound command.data).isEmpty = true
  · have hlist : varsFound command.data = [] := by
      simpa using hv
    have hok : onOk vals command = command := by
      unfold onOk
      rw [hlist]
      rfl
    refine ⟨?_, ?_, ?_⟩ <;> simp [expand_template, dialog_run, hv, hok]
  · refine ⟨?_, ?_, ?_⟩
    · simp [expand_template, dialog_run, hv]
    · intro hne
      have hne2 : (onOk vals command).isEmpty = false := by
        rcases h : (onOk vals command).isEmpty with _ | _
        · rfl
        · exact absurd ((String.isEmpty_iff _).mp h) hne
      simp [expand_template, dialog_run, hv, hne2]
    · intro he
      simp [expand_template, dialog_run, hv, he, String.isEmpty]

/-- Witness for the amended C8: cancelling returns `"ping {h}"`
unchanged, confirming with the value `"9"` returns `"ping 9"`. -/
theorem c8_amended_cancel_vs_confirm_witness :
    expand_template "ping \x7bh\x7d"
      (dialog_run (fun _ => "9") true "ping \x7bh\x7d") = "ping \x7bh\x7d" ∧
    expand_template "ping \x7bh\x7d"
      (dialog_run (fun _ => "9") false "ping \x7bh\x7d") = "ping 9" := by
  have h := c8_amended_cancel_vs_confirm (fun _ => "9") "ping \x7bh\x7d"
  have hok : onOk (fun _ => "9") "ping \x7bh\x7d" = "ping 9" := by
    simp [onOk, varsFound, findall, tokenize, dedupFirstGo, replaceAll, ph,
      leadsWith, isWordChar]
  refine ⟨h.1, ?_⟩
  rw [h.2.1 (by rw [hok]; decide)]
  exact hok

/-! ## Analysis of the scan and of sequential replacement -/

/-- Concatenate a token list back into text: literals as themselves,
`Tok.var n` as `{n}`. -/
def render : List Tok → List Char
  | [] => []
  | Tok.lit c :: toks => c :: render toks
  | Tok.var n :: toks => ph n ++ render toks

/-- Names produced by the scan are non-empty runs of word
characters. -/
def namesWF (toks : List Tok) : Prop :=
  ∀ n, Tok.var n ∈ toks → n.data ≠ [] ∧ ∀ c ∈ n.data, isWordChar c = true

/-- No literal (unmatched) character of the scan is a brace. -/
def litsClean (toks : List Tok) : Bool :=
  toks.all (fun t => match t with
    | Tok.lit c => decide (c ≠ '\x7b') && decide (c ≠ '\x7d')
    | Tok.var _ => true)

/-- A string containing no brace character. -/
def braceFree (s : String) : Bool :=
  s.data.all (fun c => c ≠ '\x7b' && c ≠ '\x7d')

/-- Substitute the single name `n` by the literal text `v`, leaving all
other tokens alone (the effect of one `str.replace` pass on the token
decomposition). -/
def substOne (n : String) (v : List Char) (toks : List Tok) : List Tok :=
  toks.flatMap (fun t => match t with
    | Tok.lit c => [Tok.lit c]
    | Tok.var m => if m = n then v.map Tok.lit else [Tok.var m])

/-- Substitute every variable token by its value as literal text. -/
def fullSubst (vals : String → String) (toks : List Tok) : List Tok :=
  toks.flatMap (fun t => match t with
    | Tok.lit c => [Tok.lit c]
    | Tok.var m => (vals m).data.map Tok.lit)

theorem tokenize_nil : tokenize [] = [] := by
  rw [tokenize]

theorem tokenize_cons_nonbrace (c : Char) (rest : List Char)
    (hc : ¬ c = '\x7b') :
    tokenize (c :: rest) = Tok.lit c :: tokenize rest := by
  rw [tokenize]
  simp [hc]

theorem tokenize_cons_emptyname (rest : List Char)
    (hemp : (rest.takeWhile isWordChar).isEmpty = true) :
    tokenize ('\x7b' :: rest) = Tok.lit '\x7b' :: tokenize rest := by
  rw [tokenize]
  simp [hemp]

theorem tokenize_cons_var (rest : List Char)
    (hne : ¬ (rest.takeWhile isWordChar).isEmpty = true)
    (hhd : (rest.dropWhile isWordChar).head? = some '\x7d') :
    tokenize ('\x7b' :: rest) =
      Tok.var (String.mk (rest.takeWhile isWordChar)) ::
        tokenize (rest.dropWhile isWordChar).tail := by
  rw [tokenize]
  simp [hne, hhd]

theorem tokenize_cons_nobrace2 (rest : List Char)
    (hne : ¬ (rest.takeWhile isWordChar).isEmpty = true)
    (hhd : ¬ (rest.dropWhile isWordChar).head? = some '\x7d') :
    tokenize ('\x7b' :: rest) = Tok.lit '\x7b' :: tokenize rest := by
  rw [tokenize]
  simp [hne, hhd]

theorem tokenize_render (l : List Char) : render (tokenize l) = l := by
  induction l using tokenize.induct with
  | case1 => rw [tokenize_nil]; rfl
  | case2 rest hemp ih =>
    rw [tokenize_cons_emptyname rest hemp, render, ih]
  | case3 rest hne hhd ih =>
    rw [tokenize_cons_var rest hne hhd, render, ih]
    unfold ph
    simp only [String.mk, List.cons_append, List.append_assoc,
      List.singleton_append, List.cons_inj_right]
    rcases hdw : rest.dropWhile isWordChar with _ | ⟨d, dtail⟩
    · rw [hdw] at hhd
      simp at hhd
    · rw [hdw] at hhd
      simp only [List.head?_cons, Option.some.injEq] at hhd
      subst hhd
      have hsplit := List.takeWhile_append_dropWhile isWordChar rest
      rw [hdw] at hsplit
      simpa using hsplit
  | case4 rest hne hhd ih =>
    rw [tokenize_cons_nobrace2 rest hne hhd, render, ih]
  | case5 c rest hc ih =>
    rw [tokenize_cons_nonbrace c rest hc, render, ih]

theorem tokenize_namesWF (l : List Char) : namesWF (tokenize l) := by
  induction l using tokenize.induct with
  | case1 =>
    intro n hn
    rw [tokenize_nil] at hn
    simp at hn
  | case2 rest hemp ih =>
    intro n hn
    rw [tokenize_cons_emptyname rest hemp] at hn
    rcases List.mem_cons.mp hn with h | h
    · simp at h
    · exact ih n h
  | case3 rest hne hhd ih =>
    intro n hn
    rw [tokenize_cons_var rest hne hhd] at hn
    rcases List.mem_cons.mp hn with h | h
    · simp only [Tok.var.injEq] at h
      subst h
      refine ⟨by simpa using hne, ?_⟩
      intro c hc
      exact List.mem_takeWhile_imp hc
    · exact ih n h
  | case4 rest hne hhd ih =>
    intro n hn
    rw [tokenize_cons_nobrace2 rest hne hhd] at hn
    rcases List.mem_cons.mp hn with h | h
    · simp at h
    · exact ih n h
  | case5 c rest hc ih =>
    intro n hn
    rw [tokenize_cons_nonbrace c rest hc] at hn
    rcases List.mem_cons.mp hn with h | h
    · simp at h
    · exact ih n h

/-! ## Lemmas about `dict.fromkeys` (first-occurrence dedup) -/

theorem mem_dedupFirstGo (seen l : List String) (x : String) :
    x ∈ dedupFirstGo seen l ↔ x ∈ l ∧ x ∉ seen := by
  induction l generalizing seen with
  | nil => simp [dedupFirstGo]
  | cons y ys ih =>
    unfold dedupFirstGo
    by_cases hy : y ∈ seen
    · rw [if_pos hy, ih]
      simp only [List.mem_cons]
      constructor
      · rintro ⟨h1, h2⟩
        exact ⟨Or.inr h1, h2⟩
      · rintro ⟨h1 | h1, h2⟩
        · exact absurd (h1 ▸ hy) h2
        · exact ⟨h1, h2⟩
    · rw [if_neg hy]
      simp only [List.mem_cons, ih, List.mem_cons]
      constructor
      · rintro (rfl | ⟨h1, h2⟩)
        · exact ⟨Or.inl rfl, hy⟩
        · exact ⟨Or.inr h1, fun hs => h2 (Or.inr hs)⟩
      · rintro ⟨rfl | h1, h2⟩
        · exact Or.inl rfl
        · by_cases hxy : x = y
          · exact Or.inl hxy
          · exact Or.inr ⟨h1, fun hs => (by
              rcases hs with hs | hs
              · exact hxy hs
              · exact h2 hs)⟩

theorem nodup_dedupFirstGo (seen l : List String) :
    (dedupFirstGo seen l).Nodup := by
  induction l generalizing seen with
  | nil => simp [dedupFirstGo]
  | cons y ys ih =>
    unfold dedupFirstGo
    by_cases hy : y ∈ seen
    · rw [if_pos hy]
      exact ih seen
    · rw [if_neg hy]
      refine List.nodup_cons.mpr ⟨?_, ih _⟩
      intro hmem
      exact ((mem_dedupFirstGo _ _ _).mp hmem).2 (List.mem_cons_self _ _)

theorem pairwise_indexOf_dedupFirstGo (l seen : List String) :
    (dedupFirstGo seen l).Pairwise
      (fun a b => l.indexOf a < l.indexOf b) := by
  induction l generalizing seen with
  | nil => simp [dedupFirstGo]
  | cons y ys ih =>
    unfold dedupFirstGo
    by_cases hy : y ∈ seen
    · rw [if_pos hy]
      refine List.Pairwise.imp_of_mem ?_ (ih seen)
      intro a b ha hb hr
      have ha2 := (mem_dedupFirstGo _ _ _).mp ha
      have hb2 := (mem_dedupFirstGo _ _ _).mp hb
      have hay : y ≠ a := fun h => ha2.2 (h ▸ hy)
      have hby : y ≠ b := fun h => hb2.2 (h ▸ hy)
      rw [List.indexOf_cons_ne _ hay, List.indexOf_cons_ne _ hby]
      omega
    · rw [if_neg hy]
      refine List.pairwise_cons.mpr ⟨?_, ?_⟩
      · intro b hb
        have hb2 := (mem_dedupFirstGo _ _ _).mp hb
        have hby : y ≠ b := fun h => hb2.2 (h ▸ List.mem_cons_self y seen)
        rw [List.indexOf_cons_self, List.indexOf_cons_ne _ hby]
        omega
      · refine List.Pairwise.imp_of_mem ?_ (ih (y :: seen))
        intro a b ha hb hr
        have ha2 := (mem_dedupFirstGo _ _ _).mp ha
        have hb2 := (mem_dedupFirstGo _ _ _).mp hb
        have hay : y ≠ a := fun h => ha2.2 (h ▸ List.mem_cons_self y seen)
        have hby : y ≠ b := fun h => hb2.2 (h ▸ List.mem_cons_self y seen)
        rw [List.indexOf_cons_ne _ hay, List.indexOf_cons_ne _ hby]
        omega

/-! ## Behaviour of `str.replace` on a token decomposition -/

theorem leadsWith_append_self (p rest : List Char) :
    leadsWith p (p ++ rest) = true := by
  induction p with
  | nil => rfl
  | cons c cs ih => simp [leadsWith, ih]

theorem replaceAll_nil (pat val : List Char) :
    replaceAll pat val [] = [] := by
  rw [replaceAll]

theorem replaceAll_no_match (pat val : List Char) (c : Char) (s : List Char)
    (hpat : pat ≠ []) (hlw : leadsWith pat (c :: s) = false) :
    replaceAll pat val (c :: s) = c :: replaceAll pat val s := by
  rw [replaceAll]
  have hpat2 : pat.isEmpty = false := by
    cases pat with
    | nil => exact absurd rfl hpat
    | cons p ps => rfl
  simp [hpat2, hlw]

theorem replaceAll_match (pat val rest : List Char) (hpat : pat ≠ []) :
    replaceAll pat val (pat ++ rest) = val ++ replaceAll pat val rest := by
  rcases hp : pat with _ | ⟨p, ps⟩
  · exact absurd rfl (hp ▸ hpat)
  · rw [List.cons_append, replaceAll]
    have hlw : leadsWith (p :: ps) (p :: (ps ++ rest)) = true := by
      have := leadsWith_append_self (p :: ps) rest
      simpa using this
    simp only [List.isEmpty_cons, Bool.false_eq_true, if_false, hlw, if_true]
    congr 1
    rw [← List.cons_append, List.drop_left]

theorem replaceAll_walk (p0 : Char) (pt val : List Char) (l s : List Char)
    (hl : ∀ c ∈ l, c ≠ p0) :
    replaceAll (p0 :: pt) val (l ++ s) = l ++ replaceAll (p0 :: pt) val s := by
  induction l with
  | nil => rfl
  | cons c cs ih =>
    have hc : c ≠ p0 := hl c (List.mem_cons_self _ _)
    have hlw : leadsWith (p0 :: pt) (c :: (cs ++ s)) = false := by
      have : (p0 == c) = false := by
        simp [Ne.symm hc]
      simp [leadsWith, this]
    rw [List.cons_append,
      replaceAll_no_match _ _ _ _ (by simp) hlw,
      ih (fun d hd => hl d (List.mem_cons_of_mem _ hd))]
    simp

/-- A word character is not a brace. -/
theorem isWordChar_no_brace {c : Char} (h : isWordChar c = true) :
    c ≠ '\x7b' ∧ c ≠ '\x7d' := by
  constructor
  · intro heq
    subst heq
    exact absurd h (by decide)
  · intro heq
    subst heq
    exact absurd h (by decide)

/-- Distinct word-character names have disjoint placeholders: `{n}`
never matches at the start of `{m}⋯` for `m ≠ n` (here stated after the
shared opening brace). -/
theorem placeholder_mismatch (xs ys rest : List Char)
    (hxs : ∀ c ∈ xs, isWordChar c = true)
    (hys : ∀ c ∈ ys, isWordChar c = true)
    (hne : xs ≠ ys) :
    leadsWith (xs ++ ['\x7d']) (ys ++ '\x7d' :: rest) = false := by
  induction xs generalizing ys with
  | nil =>
    rcases ys with _ | ⟨b, bs⟩
    · exact absurd rfl hne
    · have hb := (isWordChar_no_brace (hys b (List.mem_cons_self _ _))).2
      simp [leadsWith, hb]
      exact fun h => hb h.symm
  | cons a as ih =>
    rcases ys with _ | ⟨b, bs⟩
    · have ha := (isWordChar_no_brace (hxs a (List.mem_cons_self _ _))).2
      simp [leadsWith, ha]
    · by_cases hab : a = b
      · subst hab
        have hne2 : as ≠ bs := fun h => hne (h ▸ rfl)
        have := ih bs (fun c hc => hxs c (List.mem_cons_of_mem _ hc))
          (fun c hc => hys c (List.mem_cons_of_mem _ hc)) hne2
        simpa [leadsWith] using this
      · simp [leadsWith, hab]

theorem render_map_lit (v : List Char) : render (v.map Tok.lit) = v := by
  induction v with
  | nil => rfl
  | cons c cs ih => simp [render, ih]

theorem render_append (a b : List Tok) :
    render (a ++ b) = render a ++ render b := by
  induction a with
  | nil => rfl
  | cons t ts ih => cases t <;> simp [render, ih]

theorem litsClean_cons_lit {c : Char} {toks : List Tok}
    (h : litsClean (Tok.lit c :: toks) = true) :
    (c ≠ '\x7b' ∧ c ≠ '\x7d') ∧ litsClean toks = true := by
  simp only [litsClean, List.all_cons, Bool.and_eq_true,
    decide_eq_true_eq] at h
  exact ⟨⟨h.1.1, h.1.2⟩, by simp only [litsClean]; exact h.2⟩

theorem litsClean_cons_var {m : String} {toks : List Tok}
    (h : litsClean (Tok.var m :: toks) = true) : litsClean toks = true := by
  simp only [litsClean, List.all_cons, Bool.and_eq_true] at h
  simp only [litsClean]
  exact h.2

theorem namesWF_cons {t : Tok} {toks : List Tok} (h : namesWF (t :: toks)) :
    namesWF toks :=
  fun n hn => h n (List.mem_cons_of_mem _ hn)

theorem step_replace (n : String) (v : List Char)
    (hn2 : ∀ c ∈ n.data, isWordChar c = true)
    (toks : List Tok) (hWF : namesWF toks) (hclean : litsClean toks = true) :
    replaceAll (ph n) v (render toks) = render (substOne n v toks) := by
  induction toks with
  | nil => simp [render, substOne, replaceAll_nil]
  | cons t toks ih =>
    cases t with
    | lit c =>
      obtain ⟨⟨hc1, hc2⟩, hcl⟩ := litsClean_cons_lit hclean
      have hWF2 := namesWF_cons hWF
      have hlw : leadsWith (ph n) (c :: render toks) = false := by
        unfold ph
        have : ('\x7b' == c) = false := by simp [Ne.symm hc1]
        simp [leadsWith, this]
      rw [render, replaceAll_no_match _ _ _ _ (by simp [ph]) hlw,
        ih hWF2 hcl]
      have hsub : substOne n v (Tok.lit c :: toks) =
          Tok.lit c :: substOne n v toks := by
        simp [substOne]
      rw [hsub, render]
    | var m =>
      have hWF2 := namesWF_cons hWF
      have hcl := litsClean_cons_var hclean
      by_cases hmn : m = n
      · subst hmn
        rw [render, replaceAll_match _ _ _ (by simp [ph]),
          ih hWF2 hcl]
        simp [substOne, render_append, render_map_lit]
      · obtain ⟨hm1, hm2⟩ := hWF m (List.mem_cons_self _ _)
        have hdata : n.data ≠ m.data := by
          intro h
          apply hmn
          cases m with
          | mk md =>
            cases n with
            | mk nd => exact congrArg String.mk (by simpa using h.symm)
        have hpm := placeholder_mismatch n.data m.data (render toks)
          hn2 hm2 hdata
        have hshape : render (Tok.var m :: toks) =
            '\x7b' :: ((m.data ++ ['\x7d']) ++ render toks) := by
          rw [render]
          unfold ph
          simp
        rw [hshape]
        have hlw : leadsWith (ph n)
            ('\x7b' :: ((m.data ++ ['\x7d']) ++ render toks)) = false := by
          unfold ph
          simp only [leadsWith, beq_self_eq_true, Bool.true_and]
          rw [List.append_assoc, List.singleton_append]
          exact hpm
        rw [replaceAll_no_match _ _ _ _ (by simp [ph]) hlw]
        have hwalkchars : ∀ c ∈ m.data ++ ['\x7d'], c ≠ '\x7b' := by
          intro c hc
          rcases List.mem_append.mp hc with h | h
          · exact (isWordChar_no_brace (hm2 c h)).1
          · simp only [List.mem_singleton] at h
            subst h
            decide
        have hwalk : replaceAll (ph n) v
            ((m.data ++ ['\x7d']) ++ render toks) =
            (m.data ++ ['\x7d']) ++ replaceAll (ph n) v (render toks) := by
          unfold ph
          exact replaceAll_walk '\x7b' (n.data ++ ['\x7d']) v
            (m.data ++ ['\x7d']) (render toks) hwalkchars
        rw [hwalk, ih hWF2 hcl]
        have hsub : substOne n v (Tok.var m :: toks) =
            Tok.var m :: substOne n v toks := by
          simp [substOne, hmn]
        rw [hsub, render]
        unfold ph
        simp

theorem var_mem_substOne {k n : String} {v : List Char} {toks : List Tok}
    (h : Tok.var k ∈ substOne n v toks) :
    Tok.var k ∈ toks ∧ k ≠ n := by
  unfold substOne at h
  rcases List.mem_flatMap.mp h with ⟨t, ht, hkt⟩
  cases t with
  | lit c => simp at hkt
  | var m =>
    dsimp only at hkt
    by_cases hmn : m = n
    · rw [if_pos hmn] at hkt
      rcases List.mem_map.mp hkt with ⟨c, _, hc⟩
      simp at hc
    · rw [if_neg hmn] at hkt
      simp only [List.mem_singleton, Tok.var.injEq] at hkt
      subst hkt
      exact ⟨ht, hmn⟩

theorem namesWF_substOne (n : String) (v : List Char) (toks : List Tok)
    (h : namesWF toks) : namesWF (substOne n v toks) :=
  fun m hm => h m (var_mem_substOne hm).1

theorem braceFree_chars {s : String} (h : braceFree s = true) :
    ∀ c ∈ s.data, c ≠ '\x7b' ∧ c ≠ '\x7d' := by
  intro c hc
  have := List.all_eq_true.mp h c hc
  simpa using this

theorem litsClean_map_lit (v : List Char) :
    (∀ c ∈ v, c ≠ '\x7b' ∧ c ≠ '\x7d') → litsClean (v.map Tok.lit) = true := by
  induction v with
  | nil => intro _; rfl
  | cons c cs ih =>
    intro hv
    have hc := hv c (List.mem_cons_self _ _)
    simp only [List.map_cons, litsClean, List.all_cons, Bool.and_eq_true,
      decide_eq_true_eq]
    refine ⟨⟨hc.1, hc.2⟩, ?_⟩
    have := ih (fun d hd => hv d (List.mem_cons_of_mem _ hd))
    simpa [litsClean] using this

theorem litsClean_append (a b : List Tok) :
    litsClean (a ++ b) = (litsClean a && litsClean b) := by
  simp [litsClean, List.all_append]

theorem substOne_cons (n : String) (v : List Char) (t : Tok)
    (toks : List Tok) :
    substOne n v (t :: toks) =
      (match t with
       | Tok.lit c => [Tok.lit c]
       | Tok.var m => if m = n then v.map Tok.lit else [Tok.var m]) ++
        substOne n v toks := by
  simp [substOne]

theorem litsClean_substOne (n : String) (v : List Char)
    (hv : ∀ c ∈ v, c ≠ '\x7b' ∧ c ≠ '\x7d')
    (toks : List Tok) (h : litsClean toks = true) :
    litsClean (substOne n v toks) = true := by
  induction toks with
  | nil => rfl
  | cons t toks ih =>
    rw [substOne_cons, litsClean_append, Bool.and_eq_true]
    cases t with
    | lit c =>
      obtain ⟨hc, hcl⟩ := litsClean_cons_lit h
      exact ⟨by simp [litsClean, hc.1, hc.2], ih hcl⟩
    | var m =>
      have hcl := litsClean_cons_var h
      by_cases hmn : m = n
      · exact ⟨by simp [hmn, litsClean_map_lit v hv], ih hcl⟩
      · exact ⟨by simp [hmn, litsClean], ih hcl⟩

theorem fold_replace_render (vals : String → String) (names : List String) :
    ∀ (toks : List Tok), namesWF toks → litsClean toks = true →
      (∀ n ∈ names, braceFree (vals n) = true) →
      (∀ n ∈ names, ∀ c ∈ n.data, isWordChar c = true) →
      names.foldl (fun s n => replaceAll (ph n) (vals n).data s)
        (render toks) =
      render (names.foldl (fun tk n => substOne n (vals n).data tk) toks) := by
  induction names with
  | nil => intro toks _ _ _ _; rfl
  | cons n ns ih =>
    intro toks hWF hclean hvals hword
    simp only [List.foldl_cons]
    rw [step_replace n (vals n).data
      (hword n (List.mem_cons_self _ _)) toks hWF hclean]
    exact ih _ (namesWF_substOne _ _ _ hWF)
      (litsClean_substOne _ _
        (braceFree_chars (hvals n (List.mem_cons_self _ _))) _ hclean)
      (fun m hm => hvals m (List.mem_cons_of_mem _ hm))
      (fun m hm => hword m (List.mem_cons_of_mem _ hm))

theorem fullSubst_cons (vals : String → String) (t : Tok) (toks : List Tok) :
    fullSubst vals (t :: toks) =
      (match t with
       | Tok.lit c => [Tok.lit c]
       | Tok.var m => (vals m).data.map Tok.lit) ++ fullSubst vals toks := by
  simp [fullSubst]

theorem fullSubst_map_lit (vals : String → String) (v : List Char) :
    fullSubst vals (v.map Tok.lit) = v.map Tok.lit := by
  induction v with
  | nil => rfl
  | cons c cs ih =>
    simp only [List.map_cons, fullSubst_cons, ih]
    rfl

theorem fullSubst_append (vals : String → String) (a b : List Tok) :
    fullSubst vals (a ++ b) = fullSubst vals a ++ fullSubst vals b := by
  simp [fullSubst]

theorem fullSubst_substOne (vals : String → String) (n : String)
    (toks : List Tok) :
    fullSubst vals (substOne n (vals n).data toks) = fullSubst vals toks := by
  induction toks with
  | nil => rfl
  | cons t toks ih =>
    rw [substOne_cons, fullSubst_append, ih, fullSubst_cons]
    cases t with
    | lit c => rfl
    | var m =>
      by_cases hmn : m = n
      · subst hmn
        simp [fullSubst_map_lit]
      · simp only [if_neg hmn]
        rw [fullSubst_cons]
        simp [fullSubst]

theorem fullSubst_no_vars (vals : String → String) (toks : List Tok)
    (h : ∀ m, Tok.var m ∈ toks → False) : fullSubst vals toks = toks := by
  induction toks with
  | nil => rfl
  | cons t toks ih =>
    cases t with
    | lit c =>
      rw [fullSubst_cons, ih (fun m hm => h m (List.mem_cons_of_mem _ hm))]
      rfl
    | var m => exact absurd (List.mem_cons_self _ _) (fun hh => h m hh)

theorem fold_substOne_full (vals : String → String) (names : List String) :
    ∀ (toks : List Tok), (∀ m, Tok.var m ∈ toks → m ∈ names) →
      names.foldl (fun tk n => substOne n (vals n).data tk) toks =
        fullSubst vals toks := by
  induction names with
  | nil =>
    intro toks hsub
    simp only [List.foldl_nil]
    exact (fullSubst_no_vars vals toks
      (fun m hm => List.not_mem_nil m (hsub m hm))).symm
  | cons n ns ih =>
    intro toks hsub
    simp only [List.foldl_cons]
    rw [ih (substOne n (vals n).data toks) ?_]
    · exact fullSubst_substOne vals n toks
    · intro m hm
      obtain ⟨hmem, hmn⟩ := var_mem_substOne hm
      rcases List.mem_cons.mp (hsub m hmem) with h | h
      · exact absurd h hmn
      · exact h

theorem render_fullSubst (vals : String → String) (toks : List Tok) :
    render (fullSubst vals toks) =
      toks.flatMap (fun t => match t with
        | Tok.lit c => [c]
        | Tok.var n => (vals n).data) := by
  induction toks with
  | nil => rfl
  | cons t toks ih =>
    rw [fullSubst_cons, render_append, ih, List.flatMap_cons]
    cases t with
    | lit c => rfl
    | var m =>
      simp only [render_map_lit]

/-- Counterexample to claim C7 as stated: `on_ok` substitutes
sequentially with `str.replace`, one name after another, so a
substituted value may combine with surrounding text into a later
placeholder and be replaced again.  For the command `"{a}} {a} {c}"`
with value `"{c"` for `a` and `"X"` for `c`, the code yields
`"X {c X"`: the first occurrence of `{a}` ends up as `"X"` while the
second ends up as `"{c"` — the two occurrences of one name do not
receive the identical substituted value, and the result differs from
replacing every occurrence of each placeholder by its single value
(simultaneous substitution, which yields `"{c} {c X"`). -/
theorem c7_counterexample :
    onOk (fun n => if n = "a" then "\x7bc" else "X")
      "\x7ba\x7d\x7d \x7ba\x7d \x7bc\x7d" = "X \x7bc X" ∧
    expandSim (fun n => if n = "a" then "\x7bc" else "X")
      "\x7ba\x7d\x7d \x7ba\x7d \x7bc\x7d" = "\x7bc\x7d \x7bc X" ∧
    ("X \x7bc X" : String) ≠ "\x7bc\x7d \x7bc X" := by
  refine ⟨?_, ?_, by decide⟩
  · simp [onOk, varsFound, findall, tokenize, dedupFirstGo, replaceAll, ph,
      leadsWith, isWordChar]
  · simp [expandSim, tokenize, isWordChar]

/-- Claim C7 (amended): the expander collects the distinct placeholder
names in order of first appearance and prompts once per distinct name;
occurrences are then replaced sequentially, name by name, in that
order, so a value containing brace characters can interact with
adjacent text and later replacements; whenever no used value contains a
brace and every brace of the command belongs to a scanned placeholder,
every occurrence of `{name}` receives that name's single value — the
sequential result coincides with simultaneous substitution. -/
theorem c7_amended_template_expansion (vals : String → String)
    (command : String)
    (hvals : ∀ n ∈ varsFound command.data, braceFree (vals n) = true)
    (hlits : litsClean (tokenize command.data) = true) :
    (varsFound command.data).Nodup ∧
    (∀ n, n ∈ varsFound command.data ↔ n ∈ findall command.data) ∧
    (varsFound command.data).Pairwise
      (fun a b => (findall command.data).indexOf a <
        (findall command.data).indexOf b) ∧
    onOk vals command = expandSim vals command := by
  refine ⟨nodup_dedupFirstGo _ _, ?_, pairwise_indexOf_dedupFirstGo _ _, ?_⟩
  · intro n
    rw [varsFound, mem_dedupFirstGo]
    simp
  · unfold onOk expandSim
    congr 1
    have hword : ∀ n ∈ varsFound command.data,
        ∀ c ∈ n.data, isWordChar c = true := by
      intro n hn
      have hfa : n ∈ findall command.data :=
        ((mem_dedupFirstGo _ _ _).mp hn).1
      unfold findall at hfa
      rcases List.mem_filterMap.mp hfa with ⟨t, ht, harm⟩
      cases t with
      | lit c => simp at harm
      | var m =>
        dsimp only at harm
        simp only [Option.some.injEq] at harm
        subst harm
        exact (tokenize_namesWF command.data _ ht).2
    have hsub : ∀ m, Tok.var m ∈ tokenize command.data →
        m ∈ varsFound command.data := by
      intro m hm
      rw [varsFound, mem_dedupFirstGo]
      refine ⟨?_, List.not_mem_nil m⟩
      unfold findall
      exact List.mem_filterMap.mpr ⟨Tok.var m, hm, rfl⟩
    have hrw := fold_replace_render vals (varsFound command.data)
      (tokenize command.data) (tokenize_namesWF _) hlits hvals hword
    rw [tokenize_render] at hrw
    rw [hrw, fold_substOne_full vals _ _ hsub]
    exact render_fullSubst vals _

/-- Witness for the amended C7 at `"ping {h} {h}"` with the value
`"10"`. -/
theorem c7_amended_template_expansion_witness :
    (varsFound ("ping \x7bh\x7d \x7bh\x7d" : String).data).Nodup ∧
    onOk (fun _ => "10") "ping \x7bh\x7d \x7bh\x7d" =
      expandSim (fun _ => "10") "ping \x7bh\x7d \x7bh\x7d" := by
  have h := c7_amended_template_expansion (fun _ => "10")
    "ping \x7bh\x7d \x7bh\x7d"
    (by
      intro n hn
      show braceFree "10" = true
      decide)
    (by simp [tokenize, litsClean, isWordChar])
  exact ⟨h.1, h.2.2.2⟩
